import Mathlib

set_option maxRecDepth 8000

/- Shallow embedding of the TextSummarizer core pipeline
   (src/text_summarizer.py, src/summary_tool.py).

   Python strings are modelled as `List Char`.  The inputs of this
   repository are ASCII documents, so the ASCII fragments of the regex
   character classes are modelled exactly: Python regex classes are
   interpreted over ASCII, as are str.split, str.strip and str.lower. -/

/-- ASCII whitespace: the characters of the Python regex class for
whitespace, and the characters stripped by str.strip and split on by
str.split with no separator argument. -/
def isPySpace (c : Char) : Bool :=
  c == ' ' || c == '\t' || c == '\n' || c == '\r' || c == '\x0b' || c == '\x0c'

/-- ASCII word character, the Python regex word class: letters, digits and
the underscore. -/
def wChar (c : Char) : Bool :=
  c.isAlphanum || c == '_'

/-- Python str.strip: remove leading and trailing whitespace. -/
def trim (s : List Char) : List Char :=
  ((s.dropWhile isPySpace).reverse.dropWhile isPySpace).reverse

/-- Python text.split() with no arguments: the maximal runs of
non-whitespace characters, in order.  The accumulator holds the current
in-progress word, reversed. -/
def splitWordsAux : List Char → List Char → List (List Char)
  | [], acc => if acc = [] then [] else [acc.reverse]
  | c :: cs, acc =>
    if isPySpace c then
      if acc = [] then splitWordsAux cs []
      else acc.reverse :: splitWordsAux cs []
    else splitWordsAux cs (c :: acc)

/-- Python text.split() with no arguments. -/
def splitWords (s : List Char) : List (List Char) :=
  splitWordsAux s []

/-- Python single-space join of a list of strings. -/
def joinWords : List (List Char) → List Char
  | [] => []
  | w :: ws =>
    match ws with
    | [] => w
    | _ :: _ => w ++ ' ' :: joinWords ws

/-- Greedy packing loop of _split_text_into_chunks, at the level of word
groups: the running chunk `cur` and its running character count `curLen`
mirror current_chunk and current_length of the source; a chunk is emitted
when adding the next word (plus one separator) would exceed `maxLength`
and the running chunk is non-empty. -/
def chunkWordsAux (maxLength : Nat) : List (List Char) → List (List Char) → Nat → List (List (List Char))
  | [], cur, _ => if cur = [] then [] else [cur]
  | w :: ws, cur, curLen =>
    if maxLength < curLen + w.length + 1 ∧ cur ≠ [] then
      cur :: chunkWordsAux maxLength ws [w] w.length
    else
      chunkWordsAux maxLength ws (cur ++ [w]) (curLen + w.length + 1)

/-- _split_text_into_chunks(text, max_length): split into words, pack the
words greedily, and join each emitted group with single spaces (the source
joins each group at emission time; mapping the join over the collected
groups is the same computation). -/
def splitTextIntoChunks (text : List Char) (maxLength : Nat) : List (List Char) :=
  (chunkWordsAux maxLength (splitWords text) [] 0).map joinWords

/-- First substitution of _clean_text: collapse every maximal whitespace
run to a single space.  The Boolean argument records whether the previous
character was whitespace (i.e. whether a run is in progress). -/
def collapseWsAux : Bool → List Char → List Char
  | _, [] => []
  | prevSpace, c :: cs =>
    if isPySpace c then
      if prevSpace then collapseWsAux true cs
      else ' ' :: collapseWsAux true cs
    else c :: collapseWsAux false cs

/-- First substitution of _clean_text. -/
def collapseWhitespace (s : List Char) : List Char :=
  collapseWsAux false s

/-- Punctuation kept by the second substitution of _clean_text.  The
character code 39 is the apostrophe. -/
def allowedPunct (c : Char) : Bool :=
  c == '.' || c == ',' || c == '!' || c == '?' || c == ';' || c == ':' ||
  c == '-' || c == '(' || c == ')' || c == '[' || c == ']' || c == '"' ||
  c.toNat == 39

/-- Second substitution of _clean_text: delete every character that is not
a word character, whitespace, or one of the allowed punctuation marks. -/
def filterArtifacts (s : List Char) : List Char :=
  s.filter (fun c => wChar c || isPySpace c || allowedPunct c)

/-- Lookahead of the third substitution of _clean_text: from this suffix,
some run of whitespace characters reaches an end of line (end of string,
or a position directly before a newline, per the multiline flag). -/
def lineEndAhead (t : List Char) : Bool :=
  (t.takeWhile isPySpace).contains '\n' || (t.takeWhile isPySpace).length == t.length

/-- Third substitution of _clean_text: delete every maximal digit run that
sits at word boundaries and is followed only by whitespace up to an end of
line.  `prevW` records whether the character before the current position
in the original text is a word character (matches are located in the
original text, so a deleted run still counts as word characters on the
left of the next position).  The fuel starts at the text length and
dominates the number of steps, each of which consumes at least one
character. -/
def stripNumsAux : Nat → Bool → List Char → List Char
  | 0, _, s => s
  | _ + 1, _, [] => []
  | fuel + 1, prevW, c :: cs =>
    if c.isDigit && !prevW then
      let runLen := ((c :: cs).takeWhile Char.isDigit).length
      let rest := (c :: cs).drop runLen
      if rest.head?.all (fun d => !wChar d) && lineEndAhead rest then
        stripNumsAux fuel true rest
      else c :: stripNumsAux fuel true cs
    else c :: stripNumsAux fuel (wChar c) cs

/-- Third substitution of _clean_text. -/
def stripTrailingNumbers (s : List Char) : List Char :=
  stripNumsAux s.length false s

/-- _clean_text(text): collapse whitespace, remove artifact characters,
remove trailing page numbers, and strip the result. -/
def cleanText (text : List Char) : List Char :=
  trim (stripTrailingNumbers (filterArtifacts (collapseWhitespace text)))

/-- _calculate_target_word_count(duration_minutes): the speaking-rate
constant 155 words per minute times the duration.  The source performs no
validation of the duration. -/
def calculateTargetWordCount (durationMinutes : Int) : Int :=
  durationMinutes * 155

/-- Uppercase ASCII letter, the regex class A-Z. -/
def isUpperAZ (c : Char) : Bool :=
  'A' ≤ c && c ≤ 'Z'

/-- Matcher for the first section pattern of _extract_sections (newline,
optional whitespace, digits, a dot, whitespace, an uppercase letter, then
any run free of dots and newlines).  Returns the length of the regex match
starting at this position, if any.  Every quantified class in the pattern
is disjoint from the character required next, so the greedy maximal-run
reading is exactly the regex backtracking semantics. -/
def matchNumberedSection (s : List Char) : Option Nat :=
  match s with
  | [] => none
  | c :: r1 =>
    if c = '\n' then
      let n2 := (r1.takeWhile isPySpace).length
      let r2 := r1.drop n2
      let n3 := (r2.takeWhile Char.isDigit).length
      if n3 = 0 then none
      else
        match r2.drop n3 with
        | '.' :: r4 =>
          let n5 := (r4.takeWhile isPySpace).length
          if n5 = 0 then none
          else
            match r4.drop n5 with
            | [] => none
            | d :: r6 =>
              if isUpperAZ d then
                some (1 + n2 + n3 + 1 + n5 + 1 +
                  (r6.takeWhile (fun ch => !(ch == '.' || ch == '\n'))).length)
              else none
        | _ => none
    else none

/-- Matcher for the second section pattern of _extract_sections (newline,
optional whitespace, an uppercase letter, a non-empty run of uppercase
letters and whitespace, then a colon). -/
def matchAllCapsHeader (s : List Char) : Option Nat :=
  match s with
  | [] => none
  | c :: r1 =>
    if c = '\n' then
      let n2 := (r1.takeWhile isPySpace).length
      match r1.drop n2 with
      | [] => none
      | d :: r3 =>
        if isUpperAZ d then
          let n4 := (r3.takeWhile (fun ch => isUpperAZ ch || isPySpace ch)).length
          if n4 = 0 then none
          else
            match r3.drop n4 with
            | ':' :: _ => some (1 + n2 + 1 + n4 + 1)
            | _ => none
        else none
    else none

/-- Matcher for the third section pattern of _extract_sections (newline,
optional whitespace, an uppercase letter, a run free of dots and newlines,
a newline, with an uppercase letter looked ahead but not consumed). -/
def matchTitleCaseHeader (s : List Char) : Option Nat :=
  match s with
  | [] => none
  | c :: r1 =>
    if c = '\n' then
      let n2 := (r1.takeWhile isPySpace).length
      match r1.drop n2 with
      | [] => none
      | d :: r3 =>
        if isUpperAZ d then
          let n4 := (r3.takeWhile (fun ch => !(ch == '.' || ch == '\n'))).length
          match r3.drop n4 with
          | '\n' :: e :: _ => if isUpperAZ e then some (1 + n2 + 1 + n4 + 1) else none
          | _ => none
        else none
    else none

/-- re.finditer scanning loop: try the matcher at each position; on a
match record (start position, matched text) and resume directly after the
match (matches never overlap); otherwise advance one character.  Every
match of the three section matchers consumes at least its leading newline,
so each step consumes at least one character and the fuel, initialised to
the text length, never runs out. -/
def finditerAux (m : List Char → Option Nat) : Nat → List Char → Nat → List (Nat × List Char)
  | 0, _, _ => []
  | _ + 1, [], _ => []
  | fuel + 1, c :: cs, pos =>
    match m (c :: cs) with
    | some len =>
      if 0 < len then
        (pos, (c :: cs).take len) :: finditerAux m fuel ((c :: cs).drop len) (pos + len)
      else finditerAux m fuel cs (pos + 1)
    | none => finditerAux m fuel cs (pos + 1)

/-- re.finditer over a whole text. -/
def finditer (m : List Char → Option Nat) (s : List Char) : List (Nat × List Char) :=
  finditerAux m s.length s 0

/-- One title-and-position record of _extract_sections: the stripped match
text and the match start. -/
def sectionEntry (e : Nat × List Char) : List Char × Nat :=
  (trim e.2, e.1)

/-- _extract_sections(text): for each of the three patterns in turn,
append all its matches in scan order; truncate the combined list to the
first 10. -/
def extractSections (text : List Char) : List (List Char × Nat) :=
  ((finditer matchNumberedSection text).map sectionEntry ++
   (finditer matchAllCapsHeader text).map sectionEntry ++
   (finditer matchTitleCaseHeader text).map sectionEntry).take 10

/-- ASCII letter, the regex class of both-case letters. -/
def isLetterAZ (c : Char) : Bool :=
  ('a' ≤ c && c ≤ 'z') || ('A' ≤ c && c ≤ 'Z')

/-- re.findall of the word pattern of _extract_key_topics: maximal letter
runs of length at least 4 whose neighbours are word boundaries.  Because a
maximal run is flanked by non-letters, the boundary condition is that the
flanking characters are not digits or underscores; `prevW` records whether
the previous character was a word character.  A failed boundary admits no
shorter match at the same start (the character after any shorter prefix is
a letter), so the scan advances one character.  Each step consumes fuel
once and at least one character, so fuel equal to the text length never
runs out. -/
def findWordsAux : Nat → Bool → List Char → List (List Char)
  | 0, _, _ => []
  | _ + 1, _, [] => []
  | fuel + 1, prevW, c :: cs =>
    if isLetterAZ c && !prevW then
      let run := (c :: cs).takeWhile isLetterAZ
      let rest := (c :: cs).drop run.length
      if 4 ≤ run.length && rest.head?.all (fun d => !wChar d) then
        run :: findWordsAux fuel true rest
      else findWordsAux fuel (wChar c) cs
    else findWordsAux fuel (wChar c) cs

/-- Word tokenisation of _extract_key_topics over the lowered text. -/
def findTopicWords (s : List Char) : List (List Char) :=
  findWordsAux s.length false s

/-- The stop-word set of _extract_key_topics, as written in the source
(duplicates in the source literal do not change membership). -/
def stopWords : List (List Char) :=
  ["this", "that", "with", "have", "will", "from", "they", "been", "were",
   "said", "each", "which", "their", "time", "would", "there", "could",
   "other", "after", "first", "well", "also", "new", "want", "because",
   "any", "these", "give", "day", "most", "us", "is", "are", "was", "be",
   "being", "has", "had", "do", "does", "did", "should", "may", "might",
   "must", "can", "shall"].map String.toList

/-- One dictionary update of the frequency tally: increment the count of
`w` in place, or append it with count 1.  Appending preserves the
first-occurrence ordering of Python dict insertion. -/
def bumpCount (w : List Char) : List (List Char × Nat) → List (List Char × Nat)
  | [] => [(w, 1)]
  | (x, n) :: rest => if x = w then (x, n + 1) :: rest else (x, n) :: bumpCount w rest

/-- The frequency tally loop of _extract_key_topics: count each word that
is not a stop word and is longer than 3 characters, in first-occurrence
order. -/
def wordFreq (words : List (List Char)) : List (List Char × Nat) :=
  words.foldl (fun acc w => if w ∉ stopWords ∧ 3 < w.length then bumpCount w acc else acc) []

/-- Stable insertion for descending-by-count order: the new element goes
before the first element whose count it is at least as large as, so
elements with equal counts keep their original relative order, exactly as
Python sorted with reverse=True does. -/
def insertByCountDesc (x : List Char × Nat) : List (List Char × Nat) → List (List Char × Nat)
  | [] => [x]
  | y :: ys => if y.2 ≤ x.2 then x :: y :: ys else y :: insertByCountDesc x ys

/-- Python sorted with key count and reverse=True: the unique stable
descending sort by count. -/
def sortByCountDesc : List (List Char × Nat) → List (List Char × Nat)
  | [] => []
  | x :: xs => insertByCountDesc x (sortByCountDesc xs)

/-- _extract_key_topics(text): tokenise the lowered text, tally the
frequencies, sort by count descending (stable) and keep the first 10. -/
def extractKeyTopics (text : List Char) : List (List Char × Nat) :=
  (sortByCountDesc (wordFreq (findTopicWords (text.map Char.toLower)))).take 10

/-- re.split on runs of sentence-ending punctuation, as used by
_extract_key_points.  A separator character whose successor is also a
separator belongs to a run whose break has already been accounted for; a
separator whose successor is not contributes one break. -/
def splitSentences : List Char → List (List Char)
  | [] => [[]]
  | c :: cs =>
    let rest := splitSentences cs
    if c == '.' || c == '!' || c == '?' then
      match cs with
      | d :: _ => if d == '.' || d == '!' || d == '?' then rest else [] :: rest
      | [] => [] :: rest
    else
      match rest with
      | p :: ps => (c :: p) :: ps
      | [] => [[c]]

/-- The importance keyword list of _extract_key_points. -/
def importantWords : List (List Char) :=
  ["important", "key", "main", "primary", "essential", "critical",
   "significant", "major", "core", "fundamental"].map String.toList

/-- Python substring containment over character lists. -/
def isSubstring (needle : List Char) : List Char → Bool
  | [] => needle.isEmpty
  | c :: cs => needle.isPrefixOf (c :: cs) || isSubstring needle cs

/-- Keyword test of _extract_key_points: some importance keyword occurs as
a substring of the lowered sentence. -/
def containsImportantWord (t : List Char) : Bool :=
  importantWords.any (fun w => isSubstring w (t.map Char.toLower))

/-- Selection loop of _extract_key_points: each sentence is stripped; a
sentence of stripped length strictly between 20 and 100 is appended when
it contains an importance keyword, and otherwise only while fewer than 5
points have been collected. -/
def extractKeyPointsAux : List (List Char) → List (List Char) → List (List Char)
  | [], acc => acc
  | s :: rest, acc =>
    let t := trim s
    if 20 < t.length ∧ t.length < 100 then
      if containsImportantWord t then extractKeyPointsAux rest (acc ++ [t])
      else if acc.length < 5 then extractKeyPointsAux rest (acc ++ [t])
      else extractKeyPointsAux rest acc
    else extractKeyPointsAux rest acc

/-- _extract_key_points(original_text, summary): the original text
argument of the source is unused; only the summary is read. -/
def extractKeyPoints (summary : List Char) : List (List Char) :=
  (extractKeyPointsAux (splitSentences summary) []).take 5

/-- _estimate_reading_time rounding: Python round to one decimal place,
modelled exactly over the rationals with round-half-to-even. -/
def roundHalfEven (q : ℚ) : ℤ :=
  let n := q.floor
  let f := q - (n : ℚ)
  if f < 1 / 2 then n
  else if 1 / 2 < f then n + 1
  else if n % 2 = 0 then n else n + 1

/-- Round a rational to one decimal place, half to even. -/
def roundTo1 (q : ℚ) : ℚ :=
  (roundHalfEven (q * 10) : ℚ) / 10

/-- _estimate_reading_time(text): word count over the speaking rate of 155
words per minute, rounded to one decimal place. -/
def estimateReadingTime (text : List Char) : ℚ :=
  roundTo1 (((splitWords text).length : ℚ) / 155)

/-- _create_summary_prompt(text, target_word_count, duration_minutes). -/
def createSummaryPrompt (text : List Char) (targetWordCount durationMinutes : Int) : List Char :=
  ("Please create a comprehensive summary of the following text that is optimized for a ").toList ++
  (toString durationMinutes).toList ++
  ("-minute video presentation. The summary should be approximately ").toList ++
  (toString targetWordCount).toList ++
  (" words and should:\n\n1. Capture all main concepts and key findings\n2. Be engaging and suitable for spoken presentation\n3. Include important details while remaining concise\n4. Flow naturally for video narration\n5. Highlight the most significant points\n\nText to summarize:\n").toList ++
  text ++
  ("\n\nPlease provide a well-structured summary that would work perfectly for a ").toList ++
  (toString durationMinutes).toList ++
  ("-minute video script.").toList

/-- Shorten prompt of _create_openai_summary. -/
def createShortenPrompt (combined : List Char) (targetWordCount durationMinutes : Int) : List Char :=
  ("Please shorten this summary to approximately ").toList ++
  (toString targetWordCount).toList ++
  (" words while maintaining all key information and making it suitable for a ").toList ++
  (toString durationMinutes).toList ++
  ("-minute video presentation:\n\n").toList ++
  combined

/-- Per-chunk loop of _create_openai_summary.  The language-model
collaborator is a function from the request index and the request prompt
to the response text; `calls` counts the requests issued so far.  Each
chunk issues exactly one request, in chunk order, and its stripped
response is collected. -/
def summarizeChunks (oracle : Nat → List Char → List Char)
    (targetWordCount durationMinutes : Int) :
    List (List Char) → Nat → List (List Char) × Nat
  | [], calls => ([], calls)
  | chunk :: rest, calls =>
    let resp := trim (oracle calls (createSummaryPrompt chunk targetWordCount durationMinutes))
    (resp :: (summarizeChunks oracle targetWordCount durationMinutes rest (calls + 1)).1,
     (summarizeChunks oracle targetWordCount durationMinutes rest (calls + 1)).2)

/-- _create_openai_summary(text, target_word_count, duration_minutes),
returning the final summary together with the number of model requests
issued.  The chunk bound is the constant 12000 of the source.  The
combined per-chunk summaries are joined with single spaces; one further
shorten request is issued exactly when the combined word count exceeds
1.2 times the target (the comparison count > target * 1.2 is modelled
exactly as 6 * target < 5 * count over the integers). -/
def createOpenaiSummary (oracle : Nat → List Char → List Char)
    (text : List Char) (targetWordCount durationMinutes : Int) : List Char × Nat :=
  let chunks := splitTextIntoChunks text 12000
  let summaries := (summarizeChunks oracle targetWordCount durationMinutes chunks 0).1
  let calls := (summarizeChunks oracle targetWordCount durationMinutes chunks 0).2
  let combined := joinWords summaries
  if 6 * targetWordCount < 5 * ((splitWords combined).length : Int) then
    (trim (oracle calls (createShortenPrompt combined targetWordCount durationMinutes)), calls + 1)
  else (combined, calls)

/-- The result record of summarize_for_video.  reading_metrics is
delegated to the external readability collaborator, which the pipeline
receives as a function. -/
structure SummaryResult where
  summary : List Char
  keyPoints : List (List Char)
  keyTopics : List (List Char × Nat)
  sections : List (List Char × Nat)
  wordCount : Nat
  targetWordCount : Int
  estimatedDurationMinutes : ℚ
  readingMetrics : List (List Char × ℚ)
  originalWordCount : Nat
  summarizationMethod : List Char
deriving DecidableEq

/-- summarize_for_video(text, target_duration_minutes): clean, budget,
extract sections and topics, summarize through the model collaborator,
fail when the produced summary is empty, and otherwise assemble the
result record.  The returned number counts the model requests issued. -/
def summarizeForVideo (oracle : Nat → List Char → List Char)
    (metrics : List Char → List (List Char × ℚ))
    (text : List Char) (targetDurationMinutes : Int) :
    Except (List Char) SummaryResult × Nat :=
  let cleaned := cleanText text
  let target := calculateTargetWordCount targetDurationMinutes
  let sections := extractSections cleaned
  let topics := extractKeyTopics cleaned
  let s := createOpenaiSummary oracle cleaned target targetDurationMinutes
  if s.1 = [] then
    (Except.error ("Failed to generate summary using OpenAI").toList, s.2)
  else
    (Except.ok
      { summary := s.1
        keyPoints := extractKeyPoints s.1
        keyTopics := topics
        sections := sections
        wordCount := (splitWords s.1).length
        targetWordCount := target
        estimatedDurationMinutes := estimateReadingTime s.1
        readingMetrics := metrics s.1
        originalWordCount := (splitWords text).length
        summarizationMethod := ("openai").toList }, s.2)

/-- SummaryTool.process_pdf, from the point where text extraction has
produced `extractedText`: reject empty or short (stripped length under
100) text before any summarization, otherwise run summarize_for_video.
The file-existence and extension checks that precede extraction concern
the filesystem, not the text pipeline. -/
def processPdf (oracle : Nat → List Char → List Char)
    (metrics : List Char → List (List Char × ℚ))
    (extractedText : List Char) (durationMinutes : Int) :
    Except (List Char) SummaryResult × Nat :=
  if extractedText = [] ∨ (trim extractedText).length < 100 then
    (Except.error ("Insufficient text extracted from PDF").toList, 0)
  else summarizeForVideo oracle metrics extractedText durationMinutes


/-- Stub language-model collaborator for the concrete runs: every request
receives the same short fixed response, as a call-count stub does. -/
def demoOracle : Nat → List Char → List Char :=
  fun _ _ => ("A short tidy summary of the sample input text.").toList

/-- Stub readability collaborator for the concrete runs. -/
def demoMetrics : List Char → List (List Char × ℚ) :=
  fun _ => []

/-- A concrete input text of exactly 50 characters, below the
100-character minimum-length threshold of the spec. -/
def demoText : List Char :=
  ("Short sample input text that has fifty characters!").toList

/-- Placeholder record used only to name the result of a concrete
successful run. -/
def defaultResult : SummaryResult :=
  { summary := [], keyPoints := [], keyTopics := [], sections := [],
    wordCount := 0, targetWordCount := 0, estimatedDurationMinutes := 0,
    readingMetrics := [], originalWordCount := 0, summarizationMethod := [] }

/-- The result record of the concrete run of summarize_for_video on the
50-character text with the stub collaborators. -/
def demoRunResult : SummaryResult :=
  ((summarizeForVideo demoOracle demoMetrics demoText 15).1).toOption.getD defaultResult

theorem chunkWordsAux_flatten (m : Nat) :
    ∀ (ws cur : List (List Char)) (len : Nat),
      (chunkWordsAux m ws cur len).flatten = cur ++ ws := by
  intro ws
  induction ws with
  | nil =>
    intro cur len
    by_cases h : cur = [] <;> simp [chunkWordsAux, h]
  | cons w ws ih =>
    intro cur len
    by_cases h : m < len + w.length + 1 ∧ cur ≠ []
    · rw [chunkWordsAux, if_pos h]
      simp [ih]
    · rw [chunkWordsAux, if_neg h]
      simp [ih]

theorem chunkWordsAux_ne_nil (m : Nat) :
    ∀ (ws cur : List (List Char)) (len : Nat) (g : List (List Char)),
      g ∈ chunkWordsAux m ws cur len → g ≠ [] := by
  intro ws
  induction ws with
  | nil =>
    intro cur len g hg
    by_cases h : cur = []
    · rw [chunkWordsAux, if_pos h] at hg
      exact absurd hg (List.not_mem_nil g)
    · rw [chunkWordsAux, if_neg h] at hg
      rcases List.mem_singleton.mp hg with rfl
      exact h
  | cons w ws ih =>
    intro cur len g hg
    by_cases h : m < len + w.length + 1 ∧ cur ≠ []
    · rw [chunkWordsAux, if_pos h] at hg
      rcases List.mem_cons.mp hg with rfl | hg'
      · exact h.2
      · exact ih _ _ _ hg'
    · rw [chunkWordsAux, if_neg h] at hg
      exact ih _ _ _ hg

theorem splitWordsAux_word_pass :
    ∀ (w s acc : List Char), (∀ c ∈ w, isPySpace c = false) →
      splitWordsAux (w ++ s) acc = splitWordsAux s (w.reverse ++ acc) := by
  intro w
  induction w with
  | nil => intro s acc _; simp
  | cons c w ih =>
    intro s acc hw
    have hc : isPySpace c = false := hw c (List.mem_cons_self c w)
    have hw' : ∀ d ∈ w, isPySpace d = false := fun d hd => hw d (List.mem_cons_of_mem c hd)
    rw [List.cons_append, splitWordsAux, if_neg (by simp [hc]), ih s (c :: acc) hw']
    simp

theorem splitWordsAux_nonspace :
    ∀ (s acc : List Char), (∀ c ∈ acc, isPySpace c = false) →
      ∀ w ∈ splitWordsAux s acc, w ≠ [] ∧ ∀ c ∈ w, isPySpace c = false := by
  intro s
  induction s with
  | nil =>
    intro acc hacc w hw
    by_cases h : acc = []
    · rw [splitWordsAux, if_pos h] at hw
      exact absurd hw (List.not_mem_nil w)
    · rw [splitWordsAux, if_neg h] at hw
      rcases List.mem_singleton.mp hw with rfl
      refine ⟨by simpa using h, ?_⟩
      intro c hc
      exact hacc c (List.mem_reverse.mp hc)
  | cons c cs ih =>
    intro acc hacc w hw
    by_cases hsp : isPySpace c
    · rw [splitWordsAux, if_pos hsp] at hw
      by_cases h : acc = []
      · rw [if_pos h] at hw
        exact ih [] (by simp) w hw
      · rw [if_neg h] at hw
        rcases List.mem_cons.mp hw with rfl | hw'
        · refine ⟨by simpa using h, ?_⟩
          intro d hd
          exact hacc d (List.mem_reverse.mp hd)
        · exact ih [] (by simp) w hw'
    · rw [splitWordsAux, if_neg hsp] at hw
      refine ih (c :: acc) ?_ w hw
      intro d hd
      rcases List.mem_cons.mp hd with rfl | hd'
      · exact Bool.eq_false_iff.mpr hsp
      · exact hacc d hd'

theorem splitWords_nonspace (s : List Char) :
    ∀ w ∈ splitWords s, w ≠ [] ∧ ∀ c ∈ w, isPySpace c = false :=
  splitWordsAux_nonspace s [] (by simp)

theorem splitWords_joinWords :
    ∀ ws : List (List Char),
      (∀ w ∈ ws, w ≠ [] ∧ ∀ c ∈ w, isPySpace c = false) →
      splitWords (joinWords ws) = ws := by
  intro ws
  induction ws with
  | nil => intro _; simp [joinWords, splitWords, splitWordsAux]
  | cons w ws ih =>
    intro h
    have hw := h w (List.mem_cons_self w ws)
    have hws : ∀ v ∈ ws, v ≠ [] ∧ ∀ c ∈ v, isPySpace c = false :=
      fun v hv => h v (List.mem_cons_of_mem w hv)
    cases ws with
    | nil =>
      show splitWordsAux (joinWords [w]) [] = [w]
      have : joinWords [w] = w := rfl
      rw [this, ← List.append_nil w, splitWordsAux_word_pass w [] [] hw.2]
      have hrev : w.reverse ≠ [] := by simpa using hw.1
      simp [splitWordsAux, hrev]
    | cons v vs =>
      show splitWordsAux (joinWords (w :: v :: vs)) [] = w :: v :: vs
      have hj : joinWords (w :: v :: vs) = w ++ ' ' :: joinWords (v :: vs) := rfl
      rw [hj, splitWordsAux_word_pass w (' ' :: joinWords (v :: vs)) [] hw.2]
      have hsp : isPySpace ' ' = true := rfl
      have hrev : w.reverse ++ [] ≠ [] := by simpa using hw.1
      rw [splitWordsAux, if_pos hsp, if_neg hrev]
      have := ih hws
      simp only [splitWords] at this
      simp [this]

theorem joinWords_append :
    ∀ (xs ys : List (List Char)), xs ≠ [] → ys ≠ [] →
      joinWords (xs ++ ys) = joinWords xs ++ ' ' :: joinWords ys := by
  intro xs
  induction xs with
  | nil => intro ys h _; exact absurd rfl h
  | cons a xs ih =>
    intro ys _ hys
    cases xs with
    | nil =>
      cases ys with
      | nil => exact absurd rfl hys
      | cons b ys => simp [joinWords]
    | cons a' xs' =>
      have : joinWords ((a :: a' :: xs') ++ ys) = a ++ ' ' :: joinWords ((a' :: xs') ++ ys) := rfl
      rw [this, ih ys (by simp) hys]
      simp [joinWords]

theorem flatten_ne_nil_of_head :
    ∀ (gs : List (List (List Char))), gs ≠ [] → (∀ g ∈ gs, g ≠ []) → gs.flatten ≠ [] := by
  intro gs
  cases gs with
  | nil => intro h _; exact absurd rfl h
  | cons g gs =>
    intro _ hne
    have hg : g ≠ [] := hne g (List.mem_cons_self g gs)
    simp only [List.flatten_cons]
    intro hcontra
    rcases List.append_eq_nil.mp hcontra with ⟨h1, _⟩
    exact hg h1

theorem joinWords_map_joinWords :
    ∀ (gs : List (List (List Char))), (∀ g ∈ gs, g ≠ []) →
      joinWords (gs.map joinWords) = joinWords gs.flatten := by
  intro gs
  induction gs with
  | nil => intro _; rfl
  | cons g gs ih =>
    intro h
    have hg : g ≠ [] := h g (List.mem_cons_self g gs)
    have hgs : ∀ g' ∈ gs, g' ≠ [] := fun g' hg' => h g' (List.mem_cons_of_mem g hg')
    cases gs with
    | nil => simp [joinWords]
    | cons g' gs' =>
      have h1 : joinWords ((g :: g' :: gs').map joinWords)
          = joinWords g ++ ' ' :: joinWords ((g' :: gs').map joinWords) := rfl
      have hflat : (g' :: gs').flatten ≠ [] :=
        flatten_ne_nil_of_head (g' :: gs') (by simp) hgs
      rw [h1, ih hgs]
      have h2 : (g :: g' :: gs').flatten = g ++ (g' :: gs').flatten := rfl
      rw [h2, joinWords_append g ((g' :: gs').flatten) hg hflat]

theorem splitWords_empty_iff :
    ∀ (s acc : List Char), (splitWordsAux s acc = [] ↔ acc = [] ∧ ∀ c ∈ s, isPySpace c = true) := by
  intro s
  induction s with
  | nil =>
    intro acc
    by_cases h : acc = [] <;> simp [splitWordsAux, h]
  | cons c cs ih =>
    intro acc
    by_cases hsp : isPySpace c
    · rw [splitWordsAux, if_pos hsp]
      by_cases h : acc = []
      · rw [if_pos h, ih]
        simp [h, hsp]
      · rw [if_neg h]
        simp [h]
    · rw [splitWordsAux, if_neg hsp, ih]
      simp only [List.mem_cons]
      constructor
      · rintro ⟨hc, _⟩
        exact absurd hc (List.cons_ne_nil c acc)
      · rintro ⟨_, hall⟩
        exact absurd (hall c (Or.inl rfl)) (by simpa using hsp)

theorem chunkWordsAux_eq_nil_iff (m : Nat) :
    ∀ (ws : List (List Char)) (len : Nat), (chunkWordsAux m ws [] len = [] ↔ ws = []) := by
  intro ws len
  constructor
  · intro h
    have := chunkWordsAux_flatten m ws [] len
    rw [h] at this
    simpa using this.symm
  · rintro rfl
    simp [chunkWordsAux]

/-- C4.  For every input text and every maximum chunk length, re-joining
the chunks produced by _split_text_into_chunks with single spaces yields
exactly the original whitespace-delimited token sequence: no token is
dropped, duplicated, reordered, or split across chunks. -/
theorem chunker_rejoin_preserves_tokens (text : List Char) (maxLength : Nat) :
    splitWords (joinWords (splitTextIntoChunks text maxLength)) = splitWords text := by
  unfold splitTextIntoChunks
  have hne := chunkWordsAux_ne_nil maxLength (splitWords text) [] 0
  rw [joinWords_map_joinWords _ (fun g hg => hne g hg),
      chunkWordsAux_flatten maxLength (splitWords text) [] 0]
  exact splitWords_joinWords (splitWords text) (splitWords_nonspace text)

/-- C8 counterexample.  The one-character all-whitespace text is a
non-empty input on which _split_text_into_chunks produces zero chunks, so
zero chunks do not happen only on the empty string. -/
theorem chunker_whitespace_input_yields_no_chunks :
    splitTextIntoChunks [' '] 12000 = [] ∧ ([' '] : List Char) ≠ [] := by
  constructor
  · rfl
  · simp

/-- C8 amended.  _split_text_into_chunks produces zero chunks exactly when
the input text consists entirely of whitespace characters (in particular
the empty string); equivalently, it produces at least one chunk exactly
when the input contains a non-whitespace character. -/
theorem chunker_empty_iff_all_whitespace (text : List Char) (maxLength : Nat) :
    splitTextIntoChunks text maxLength = [] ↔ ∀ c ∈ text, isPySpace c = true := by
  unfold splitTextIntoChunks
  rw [List.map_eq_nil_iff, chunkWordsAux_eq_nil_iff]
  rw [show (splitWords text = []) = (splitWordsAux text [] = []) from rfl,
      splitWords_empty_iff]
  simp

/-- C3 counterexample.  _calculate_target_word_count performs no
validation: at duration 0 it returns the value 0 (and a value at negative
durations too) instead of failing with an invalid-duration error; the
source body is a single total multiplication with no failure path. -/
theorem target_word_count_zero_duration_returns_zero :
    calculateTargetWordCount 0 = 0 ∧ calculateTargetWordCount (-2) = -310 := by
  exact ⟨rfl, rfl⟩

/-- C3 amended.  _calculate_target_word_count returns the duration times
the speaking-rate constant 155 for every duration, with no validation of
non-positive durations: in particular 2325 at 15 minutes and 0 at 0
minutes. -/
theorem target_word_count_formula_all_durations :
    (∀ d : Int, calculateTargetWordCount d = d * 155) ∧
    calculateTargetWordCount 15 = 2325 ∧ calculateTargetWordCount 0 = 0 :=
  ⟨fun _ => rfl, rfl, rfl⟩

/-- C2 counterexample.  On a concrete 50-character input, below the
100-character threshold, summarize_for_video does not fail with an
insufficient-text error and does not make zero model calls: it succeeds
and issues one model request, because the core entry point contains no
minimum-length check. -/
theorem summarize_short_input_calls_model :
    demoText.length = 50 ∧
    (summarizeForVideo demoOracle demoMetrics demoText 15).2 = 1 ∧
    ((summarizeForVideo demoOracle demoMetrics demoText 15).1).toOption.isSome = true := by
  decide

/-- C2 amended.  The minimum-length rejection lives one layer above the
core entry point: SummaryTool.process_pdf fails with an
insufficient-text error before any model request is issued (zero model
calls) whenever the stripped extracted text has fewer than 100
characters; summarize_for_video itself performs no such check. -/
theorem process_pdf_rejects_short_text_before_model_calls
    (oracle : Nat → List Char → List Char) (metrics : List Char → List (List Char × ℚ))
    (text : List Char) (d : Int) (h : (trim text).length < 100) :
    (processPdf oracle metrics text d).2 = 0 ∧
    ((processPdf oracle metrics text d).1).toOption = none := by
  unfold processPdf
  rw [if_pos (Or.inr h)]
  exact ⟨rfl, rfl⟩

/-- C2 amended witness: the 50-character text satisfies the hypothesis and
is rejected by process_pdf with zero model calls. -/
theorem process_pdf_rejects_short_text_before_model_calls_witness :
    (trim demoText).length < 100 ∧
    (processPdf demoOracle demoMetrics demoText 15).2 = 0 ∧
    ((processPdf demoOracle demoMetrics demoText 15).1).toOption = none :=
  ⟨by decide,
   process_pdf_rejects_short_text_before_model_calls demoOracle demoMetrics demoText 15 (by decide)⟩

/-- C5 counterexample.  In the summary below, both sentences qualify (the
stripped lengths 35 and 31 lie strictly between 20 and 100); the second
contains the importance keywords and the first does not, yet the selected
list keeps plain sentence order: the keyword sentence is placed after a
qualifying sentence without a keyword, so keyword sentences are not
selected ahead of non-keyword ones. -/
theorem key_points_keyword_sentence_not_promoted :
    extractKeyPoints (("Alpha beta gamma delta epsilon zeta. This is the key main point here.").toList) =
      [("Alpha beta gamma delta epsilon zeta").toList,
       ("This is the key main point here").toList] ∧
    containsImportantWord (("Alpha beta gamma delta epsilon zeta").toList) = false ∧
    containsImportantWord (("This is the key main point here").toList) = true := by
  decide

theorem extractKeyPointsAux_structure :
    ∀ (sents acc : List (List Char)),
      ∃ sel, extractKeyPointsAux sents acc = acc ++ sel ∧
        List.Sublist sel (sents.map trim) := by
  intro sents
  induction sents with
  | nil =>
    intro acc
    exact ⟨[], by simp [extractKeyPointsAux]⟩
  | cons s rest ih =>
    intro acc
    by_cases hq : 20 < (trim s).length ∧ (trim s).length < 100
    · by_cases hk : containsImportantWord (trim s)
      · obtain ⟨sel, hsel, hsub⟩ := ih (acc ++ [trim s])
        refine ⟨trim s :: sel, ?_, List.Sublist.cons₂ (trim s) hsub⟩
        simp only [extractKeyPointsAux]
        rw [if_pos hq, if_pos hk, hsel]
        simp
      · by_cases hlen : acc.length < 5
        · obtain ⟨sel, hsel, hsub⟩ := ih (acc ++ [trim s])
          refine ⟨trim s :: sel, ?_, List.Sublist.cons₂ (trim s) hsub⟩
          simp only [extractKeyPointsAux]
          rw [if_pos hq, if_neg hk, if_pos hlen, hsel]
          simp
        · obtain ⟨sel, hsel, hsub⟩ := ih acc
          refine ⟨sel, ?_, List.Sublist.cons (trim s) hsub⟩
          simp only [extractKeyPointsAux]
          rw [if_pos hq, if_neg hk, if_neg hlen, hsel]
    · obtain ⟨sel, hsel, hsub⟩ := ih acc
      refine ⟨sel, ?_, List.Sublist.cons (trim s) hsub⟩
      simp only [extractKeyPointsAux]
      rw [if_neg hq, hsel]

/-- C5 amended.  Key-point selection is single-pass in sentence order, not
two-tier: the selected list is an order-preserving sublist of the
stripped sentences of the summary (a qualifying keyword sentence is
always appended when reached, a qualifying non-keyword sentence only
while fewer than 5 points have been collected), and the output is
truncated to at most 5 entries. -/
theorem key_points_sentence_order_and_bound (summary : List Char) :
    (extractKeyPoints summary).length ≤ 5 ∧
    List.Sublist (extractKeyPoints summary) ((splitSentences summary).map trim) := by
  obtain ⟨sel, hsel, hsub⟩ := extractKeyPointsAux_structure (splitSentences summary) []
  unfold extractKeyPoints
  rw [hsel]
  simp only [List.nil_append]
  constructor
  · simp
  · exact List.Sublist.trans (List.take_sublist 5 sel) hsub

theorem finditerAux_start_le (m : List Char → Option Nat) :
    ∀ (fuel : Nat) (s : List Char) (pos : Nat) (e : Nat × List Char),
      e ∈ finditerAux m fuel s pos → pos ≤ e.1 := by
  intro fuel
  induction fuel with
  | zero =>
    intro s pos e he
    exact absurd he (List.not_mem_nil e)
  | succ fuel ih =>
    intro s pos e he
    cases s with
    | nil => exact absurd he (List.not_mem_nil e)
    | cons c cs =>
      cases hm : m (c :: cs) with
      | none =>
        simp only [finditerAux, hm] at he
        exact Nat.le_of_succ_le (ih cs (pos + 1) e he)
      | some len =>
        simp only [finditerAux, hm] at he
        by_cases hl : 0 < len
        · rw [if_pos hl] at he
          rcases List.mem_cons.mp he with rfl | he'
          · exact Nat.le_refl pos
          · exact Nat.le_trans (Nat.le_add_right pos len) (ih _ (pos + len) e he')
        · rw [if_neg hl] at he
          exact Nat.le_of_succ_le (ih cs (pos + 1) e he)

theorem finditerAux_starts_pairwise (m : List Char → Option Nat) :
    ∀ (fuel : Nat) (s : List Char) (pos : Nat),
      ((finditerAux m fuel s pos).map Prod.fst).Pairwise (· < ·) := by
  intro fuel
  induction fuel with
  | zero =>
    intro s pos
    simp [finditerAux]
  | succ fuel ih =>
    intro s pos
    cases s with
    | nil => simp [finditerAux]
    | cons c cs =>
      cases hm : m (c :: cs) with
      | none =>
        simp only [finditerAux, hm]
        exact ih cs (pos + 1)
      | some len =>
        simp only [finditerAux, hm]
        by_cases hl : 0 < len
        · rw [if_pos hl]
          simp only [List.map_cons]
          refine List.Pairwise.cons ?_ (ih _ _)
          intro b hb
          simp only [List.mem_map] at hb
          obtain ⟨e, he, rfl⟩ := hb
          have hle := finditerAux_start_le m fuel _ (pos + len) e he
          omega
        · rw [if_neg hl]
          exact ih cs (pos + 1)

/-- C6 counterexample.  On the concrete text below, _extract_sections
returns the numbered-section match at position 13 before the all-caps
header match at position 0: the output carries the stripped titles and
positions, but it is not in ascending document order, because matches are
grouped by pattern rather than merged by position. -/
theorem sections_not_in_document_order :
    extractSections (("\nHELLO WORLD:\n1. First Section").toList) =
      [(("1. First Section").toList, 13), (("HELLO WORLD:").toList, 0)] ∧
    ((extractSections (("\nHELLO WORLD:\n1. First Section").toList)).map Prod.snd) = [13, 0] ∧
    ¬ List.Pairwise (fun a b => a ≤ b) ([13, 0] : List Nat) := by
  refine ⟨by decide, by decide, ?_⟩
  intro h
  rcases List.pairwise_cons.mp h with ⟨h13, _⟩
  exact absurd (h13 0 (List.mem_singleton.mpr rfl)) (by decide)

/-- C6 amended.  _extract_sections returns one group of matches per
pattern, in the fixed source order (numbered sections, then all-caps
headers, then title-case headers), each group internally in ascending
match position; the concatenated list is truncated to its first 10
entries, and it is not globally sorted by position. -/
theorem sections_grouped_by_pattern_bound (text : List Char) :
    extractSections text =
      ((finditer matchNumberedSection text).map sectionEntry ++
       (finditer matchAllCapsHeader text).map sectionEntry ++
       (finditer matchTitleCaseHeader text).map sectionEntry).take 10 ∧
    (extractSections text).length ≤ 10 ∧
    ((finditer matchNumberedSection text).map Prod.fst).Pairwise (· < ·) ∧
    ((finditer matchAllCapsHeader text).map Prod.fst).Pairwise (· < ·) ∧
    ((finditer matchTitleCaseHeader text).map Prod.fst).Pairwise (· < ·) := by
  refine ⟨rfl, ?_, finditerAux_starts_pairwise _ _ _ _,
    finditerAux_starts_pairwise _ _ _ _, finditerAux_starts_pairwise _ _ _ _⟩
  unfold extractSections
  simp

theorem mem_insertByCountDesc (x : List Char × Nat) :
    ∀ (l : List (List Char × Nat)) (y : List Char × Nat),
      y ∈ insertByCountDesc x l → y = x ∨ y ∈ l := by
  intro l
  induction l with
  | nil =>
    intro y hy
    rw [insertByCountDesc] at hy
    exact Or.inl (List.mem_singleton.mp hy)
  | cons z zs ih =>
    intro y hy
    rw [insertByCountDesc] at hy
    by_cases h : z.2 ≤ x.2
    · rw [if_pos h] at hy
      rcases List.mem_cons.mp hy with rfl | hy'
      · exact Or.inl rfl
      · exact Or.inr hy'
    · rw [if_neg h] at hy
      rcases List.mem_cons.mp hy with rfl | hy'
      · exact Or.inr (List.mem_cons_self _ _)
      · rcases ih y hy' with h1 | h2
        · exact Or.inl h1
        · exact Or.inr (List.mem_cons_of_mem _ h2)

theorem pairwise_insertByCountDesc (x : List Char × Nat) :
    ∀ l : List (List Char × Nat), l.Pairwise (fun p q => q.2 ≤ p.2) →
      (insertByCountDesc x l).Pairwise (fun p q => q.2 ≤ p.2) := by
  intro l
  induction l with
  | nil =>
    intro _
    simp [insertByCountDesc]
  | cons z zs ih =>
    intro hp
    rcases List.pairwise_cons.mp hp with ⟨hz, hzs⟩
    rw [insertByCountDesc]
    by_cases h : z.2 ≤ x.2
    · rw [if_pos h]
      refine List.pairwise_cons.mpr ⟨?_, hp⟩
      intro y hy
      rcases List.mem_cons.mp hy with rfl | hy'
      · exact h
      · exact le_trans (hz y hy') h
    · rw [if_neg h]
      refine List.pairwise_cons.mpr ⟨?_, ih hzs⟩
      intro y hy
      rcases mem_insertByCountDesc x zs y hy with rfl | hy'
      · exact le_of_not_le h
      · exact hz y hy'

theorem pairwise_sortByCountDesc :
    ∀ l : List (List Char × Nat), (sortByCountDesc l).Pairwise (fun p q => q.2 ≤ p.2) := by
  intro l
  induction l with
  | nil => simp [sortByCountDesc]
  | cons x xs ih => exact pairwise_insertByCountDesc x _ ih

theorem filter_insertByCountDesc (x : List Char × Nat) (n : Nat) :
    ∀ l : List (List Char × Nat),
      (insertByCountDesc x l).filter (fun p => p.2 == n) =
        if x.2 = n then x :: l.filter (fun p => p.2 == n)
        else l.filter (fun p => p.2 == n) := by
  intro l
  induction l with
  | nil =>
    rw [insertByCountDesc]
    by_cases h : x.2 = n
    · rw [if_pos h]
      simp [List.filter_cons, h]
    · rw [if_neg h]
      simp [List.filter_cons, h]
  | cons z zs ih =>
    rw [insertByCountDesc]
    by_cases h : z.2 ≤ x.2
    · rw [if_pos h]
      by_cases hx : x.2 = n
      · rw [if_pos hx]
        simp [List.filter_cons, hx]
      · rw [if_neg hx]
        simp [List.filter_cons, hx]
    · rw [if_neg h]
      by_cases hx : x.2 = n
      · have hz : ¬ z.2 = n := by omega
        rw [if_pos hx, List.filter_cons, List.filter_cons]
        simp only [show (z.2 == n) = false from by simp [hz], Bool.false_eq_true, if_false]
        rw [ih, if_pos hx]
      · rw [if_neg hx, List.filter_cons, List.filter_cons]
        by_cases hz : z.2 = n
        · simp only [show (z.2 == n) = true from by simp [hz], if_true]
          rw [ih, if_neg hx]
        · simp only [show (z.2 == n) = false from by simp [hz], Bool.false_eq_true, if_false]
          rw [ih, if_neg hx]

theorem filter_sortByCountDesc (n : Nat) :
    ∀ l : List (List Char × Nat),
      (sortByCountDesc l).filter (fun p => p.2 == n) = l.filter (fun p => p.2 == n) := by
  intro l
  induction l with
  | nil => rfl
  | cons x xs ih =>
    rw [sortByCountDesc, filter_insertByCountDesc]
    by_cases h : x.2 = n
    · rw [if_pos h, ih, List.filter_cons, if_pos (by simp [h])]
    · rw [if_neg h, ih, List.filter_cons, if_neg (by simp [h])]

/-- C7.  _extract_key_topics returns the first 10 entries of the stable
descending-by-count sort of the first-occurrence-ordered frequency tally
of the lowered alphabetic tokens of length at least 4 with stop words
removed: the output has at most 10 entries, counts are non-increasing,
equal-count entries keep their first-occurrence order (the filter of the
sorted tally at each count equals the filter of the tally itself), and on
the spec example the word learning, with count 3, is ranked first. -/
theorem topics_sorted_desc_stable_bounded (text : List Char) :
    extractKeyTopics text =
      (sortByCountDesc (wordFreq (findTopicWords (text.map Char.toLower)))).take 10 ∧
    (extractKeyTopics text).length ≤ 10 ∧
    (sortByCountDesc (wordFreq (findTopicWords (text.map Char.toLower)))).Pairwise
      (fun p q => q.2 ≤ p.2) ∧
    (∀ n : Nat,
      (sortByCountDesc (wordFreq (findTopicWords (text.map Char.toLower)))).filter
          (fun p => p.2 == n) =
        (wordFreq (findTopicWords (text.map Char.toLower))).filter (fun p => p.2 == n)) ∧
    extractKeyTopics (("machine learning machine learning deep learning").toList) =
      [(("learning").toList, 3), (("machine").toList, 2), (("deep").toList, 1)] := by
  refine ⟨rfl, ?_, pairwise_sortByCountDesc _, fun n => filter_sortByCountDesc n _, by decide⟩
  unfold extractKeyTopics
  simp

theorem summarizeChunks_calls (oracle : Nat → List Char → List Char)
    (targetWordCount durationMinutes : Int) :
    ∀ (chs : List (List Char)) (c : Nat),
      (summarizeChunks oracle targetWordCount durationMinutes chs c).2 = c + chs.length := by
  intro chs
  induction chs with
  | nil => intro c; rfl
  | cons ch rest ih =>
    intro c
    simp only [summarizeChunks]
    rw [ih (c + 1)]
    simp only [List.length_cons]
    omega

/-- C1.  In every summarization run, _create_openai_summary issues exactly
one model request per chunk plus one additional Shorten request exactly
when the word count of the space-joined per-chunk summaries exceeds 1.2
times the target word count (the comparison modelled exactly as 6 times
the target below 5 times the count), so the total number of model requests
is the number of chunks, plus one exactly above the 120 percent
threshold, and at most one Shorten request is ever issued. -/
theorem chunk_summarize_shorten_call_count (oracle : Nat → List Char → List Char)
    (text : List Char) (targetWordCount durationMinutes : Int) :
    (createOpenaiSummary oracle text targetWordCount durationMinutes).2 =
      (splitTextIntoChunks text 12000).length +
        (if 6 * targetWordCount <
            5 * ((splitWords (joinWords
              (summarizeChunks oracle targetWordCount durationMinutes
                (splitTextIntoChunks text 12000) 0).1)).length : Int)
         then 1 else 0) := by
  simp only [createOpenaiSummary]
  by_cases h : 6 * targetWordCount <
      5 * ((splitWords (joinWords
        (summarizeChunks oracle targetWordCount durationMinutes
          (splitTextIntoChunks text 12000) 0).1)).length : Int)
  · rw [if_pos h, if_pos h, summarizeChunks_calls]
    omega
  · rw [if_neg h, if_neg h, summarizeChunks_calls]
    omega

/-- C9.  In every result record produced by a successful run of
summarize_for_video, the word_count field equals the number of
whitespace-delimited tokens of the summary field, and the
estimated_duration_minutes field equals the word count divided by the
speaking rate of 155 words per minute, rounded to one decimal place. -/
theorem result_word_count_and_duration_invariant
    (oracle : Nat → List Char → List Char) (metrics : List Char → List (List Char × ℚ))
    (text : List Char) (d : Int) (r : SummaryResult)
    (h : (summarizeForVideo oracle metrics text d).1 = Except.ok r) :
    r.wordCount = (splitWords r.summary).length ∧
    r.estimatedDurationMinutes = roundTo1 ((r.wordCount : ℚ) / 155) := by
  simp only [summarizeForVideo] at h
  by_cases he : (createOpenaiSummary oracle (cleanText text)
      (calculateTargetWordCount d) d).1 = []
  · rw [if_pos he] at h
    simp at h
  · rw [if_neg he] at h
    simp only [Except.ok.injEq] at h
    subst h
    exact ⟨rfl, rfl⟩

/-- C9 witness: the concrete successful run on the 50-character text with
the stub collaborators satisfies the hypothesis and the invariant. -/
theorem result_word_count_and_duration_invariant_witness :
    (summarizeForVideo demoOracle demoMetrics demoText 15).1 = Except.ok demoRunResult ∧
    demoRunResult.wordCount = (splitWords demoRunResult.summary).length ∧
    demoRunResult.estimatedDurationMinutes = roundTo1 ((demoRunResult.wordCount : ℚ) / 155) := by
  have h : (summarizeForVideo demoOracle demoMetrics demoText 15).1 = Except.ok demoRunResult := by
    rfl
  exact ⟨h, result_word_count_and_duration_invariant demoOracle demoMetrics demoText 15
    demoRunResult h⟩

theorem collapseWsAux_no_newline :
    ∀ (s : List Char) (b : Bool) (c : Char), c ∈ collapseWsAux b s → c ≠ '\n' := by
  intro s
  induction s with
  | nil =>
    intro b c hc
    exact absurd hc (List.not_mem_nil c)
  | cons d ds ih =>
    intro b c hc
    rw [collapseWsAux] at hc
    by_cases hd : isPySpace d
    · rw [if_pos hd] at hc
      by_cases hb : b
      · rw [if_pos hb] at hc
        exact ih true c hc
      · rw [if_neg hb] at hc
        rcases List.mem_cons.mp hc with rfl | hc'
        · intro hcontra
          cases hcontra
        · exact ih true c hc'
    · rw [if_neg hd] at hc
      rcases List.mem_cons.mp hc with rfl | hc'
      · intro hcontra
        subst hcontra
        exact hd (by rfl)
      · exact ih false c hc'

theorem stripNumsAux_subset :
    ∀ (fuel : Nat) (b : Bool) (s : List Char) (c : Char),
      c ∈ stripNumsAux fuel b s → c ∈ s := by
  intro fuel
  induction fuel with
  | zero =>
    intro b s c hc
    exact hc
  | succ fuel ih =>
    intro b s c hc
    cases s with
    | nil => exact absurd hc (List.not_mem_nil c)
    | cons d ds =>
      simp only [stripNumsAux] at hc
      by_cases h1 : d.isDigit && !b
      · rw [if_pos h1] at hc
        by_cases h2 : ((d :: ds).drop ((d :: ds).takeWhile Char.isDigit).length).head?.all
            (fun e => !wChar e) && lineEndAhead ((d :: ds).drop ((d :: ds).takeWhile Char.isDigit).length)
        · rw [if_pos h2] at hc
          exact List.mem_of_mem_drop (ih true _ c hc)
        · rw [if_neg h2] at hc
          rcases List.mem_cons.mp hc with rfl | hc'
          · exact List.mem_cons_self c ds
          · exact List.mem_cons_of_mem d (ih true ds c hc')
      · rw [if_neg h1] at hc
        rcases List.mem_cons.mp hc with rfl | hc'
        · exact List.mem_cons_self c ds
        · exact List.mem_cons_of_mem d (ih (wChar d) ds c hc')

theorem trim_subset (s : List Char) (c : Char) : c ∈ trim s → c ∈ s := by
  intro hc
  unfold trim at hc
  rw [List.mem_reverse] at hc
  have h1 := (List.dropWhile_sublist (l := (s.dropWhile isPySpace).reverse) isPySpace).mem hc
  rw [List.mem_reverse] at h1
  exact (List.dropWhile_sublist isPySpace).mem h1

theorem cleanText_no_newline (text : List Char) : '\n' ∉ cleanText text := by
  intro h
  have h1 := trim_subset _ _ h
  have h2 := stripNumsAux_subset _ _ _ _ h1
  have h3 := List.mem_of_mem_filter h2
  exact collapseWsAux_no_newline text false '\n' h3 rfl

theorem matchNumberedSection_no_newline (c : Char) (cs : List Char) (h : c ≠ '\n') :
    matchNumberedSection (c :: cs) = none := by
  rw [matchNumberedSection, if_neg h]

theorem matchAllCapsHeader_no_newline (c : Char) (cs : List Char) (h : c ≠ '\n') :
    matchAllCapsHeader (c :: cs) = none := by
  rw [matchAllCapsHeader, if_neg h]

theorem matchTitleCaseHeader_no_newline (c : Char) (cs : List Char) (h : c ≠ '\n') :
    matchTitleCaseHeader (c :: cs) = none := by
  rw [matchTitleCaseHeader, if_neg h]

theorem finditerAux_no_newline (m : List Char → Option Nat)
    (hm : ∀ (c : Char) (cs : List Char), c ≠ '\n' → m (c :: cs) = none) :
    ∀ (fuel : Nat) (s : List Char) (pos : Nat), '\n' ∉ s → finditerAux m fuel s pos = [] := by
  intro fuel
  induction fuel with
  | zero =>
    intro s pos _
    rfl
  | succ fuel ih =>
    intro s pos hs
    cases s with
    | nil => rfl
    | cons c cs =>
      have hc : c ≠ '\n' := by
        intro hcc
        exact hs (hcc ▸ List.mem_cons_self c cs)
      simp only [finditerAux, hm c cs hc]
      exact ih cs (pos + 1) (fun hmem => hs (List.mem_cons_of_mem c hmem))

theorem extractSections_of_no_newline (s : List Char) (hs : '\n' ∉ s) :
    extractSections s = [] := by
  unfold extractSections finditer
  rw [finditerAux_no_newline matchNumberedSection matchNumberedSection_no_newline _ _ _ hs,
      finditerAux_no_newline matchAllCapsHeader matchAllCapsHeader_no_newline _ _ _ hs,
      finditerAux_no_newline matchTitleCaseHeader matchTitleCaseHeader_no_newline _ _ _ hs]
  rfl

/-- C10.  The sections field of every result record produced by
summarize_for_video is the empty list: the cleaning step collapses every
whitespace run, newlines included, to a single space, and each of the
three heading patterns requires a newline, so no pattern can match the
cleaned text. -/
theorem result_sections_always_empty
    (oracle : Nat → List Char → List Char) (metrics : List Char → List (List Char × ℚ))
    (text : List Char) (d : Int) (r : SummaryResult)
    (h : (summarizeForVideo oracle metrics text d).1 = Except.ok r) :
    r.sections = [] := by
  simp only [summarizeForVideo] at h
  by_cases he : (createOpenaiSummary oracle (cleanText text)
      (calculateTargetWordCount d) d).1 = []
  · rw [if_pos he] at h
    simp at h
  · rw [if_neg he] at h
    simp only [Except.ok.injEq] at h
    subst h
    exact extractSections_of_no_newline _ (cleanText_no_newline text)

/-- C10 witness: the concrete successful run on the 50-character text has
an empty sections field. -/
theorem result_sections_always_empty_witness :
    (summarizeForVideo demoOracle demoMetrics demoText 15).1 = Except.ok demoRunResult ∧
    demoRunResult.sections = [] := by
  have h : (summarizeForVideo demoOracle demoMetrics demoText 15).1 = Except.ok demoRunResult := by
    rfl
  exact ⟨h, result_sections_always_empty demoOracle demoMetrics demoText 15 demoRunResult h⟩
